import Mathlib

/-!
Verification of the csdigit library (Canonical Signed Digit conversion).

The Python source is shallowly embedded: CSD strings become `List Char`,
Python's arbitrary-precision integers become `ℤ`, and the IEEE-double
arithmetic of the fixed-point routines is modelled exactly over `ℚ`
(every operation the routines perform — comparison with powers of two,
addition and subtraction of powers of two, halving — is modelled as the
exact rational operation).  Python's `ceil(log(x * 1.5, 2))` is modelled
as the exact mathematical ceiling of the base-2 logarithm, expressed with
`Nat.clog`.  Functions that `raise ValueError` return `Except String`.
-/

/-- Error message used by the strict decoders (`ERROR1` in csd.py). -/
def ERROR1 : String := "Work with 0, +, -, and . only"

/-- Numeric weight of one CSD digit character. -/
def dig (c : Char) : ℤ := if c = '+' then 1 else if c = '-' then -1 else 0

/-- Horner accumulation of CSD digits, `acc -> 2*acc + digit`, the
recurrence used by both decoders. -/
def foldAcc : ℤ → List Char → ℤ
  | acc, [] => acc
  | acc, c :: rest => foldAcc (2 * acc + dig c) rest

/-- Value of a dot-free CSD digit list read as an integer. -/
def foldVal (l : List Char) : ℤ := foldAcc 0 l

/-- Loop of `to_decimal_integral` (csd.py lines 190-204): `pos` is the
current index, `acc` the running value; on `.` it returns the value and
the position just after the dot, on an unknown character it raises. -/
def toDecimalIntegralAux : List Char → ℕ → ℤ → Except String (ℤ × ℕ)
  | [], _, acc => .ok (acc, 0)
  | c :: rest, pos, acc =>
    if c = '0' then toDecimalIntegralAux rest (pos + 1) (2 * acc)
    else if c = '+' then toDecimalIntegralAux rest (pos + 1) (2 * acc + 1)
    else if c = '-' then toDecimalIntegralAux rest (pos + 1) (2 * acc - 1)
    else if c = '.' then .ok (acc, pos + 1)
    else .error ERROR1

/-- `to_decimal_integral` from csd.py: handle the integral part of a CSD
string, returning the value and the position after a dot (0 if none). -/
def to_decimal_integral (csd : List Char) : Except String (ℤ × ℕ) :=
  toDecimalIntegralAux csd 0 0

/-- Loop of `to_decimal_fractional` (csd.py lines 207-221): `scale`
halves at each position, starting at 1/2. -/
def toDecimalFractionalAux : List Char → ℚ → ℚ → Except String ℚ
  | [], _, acc => .ok acc
  | c :: rest, scale, acc =>
    if c = '0' then toDecimalFractionalAux rest (scale / 2) acc
    else if c = '+' then toDecimalFractionalAux rest (scale / 2) (acc + scale)
    else if c = '-' then toDecimalFractionalAux rest (scale / 2) (acc - scale)
    else .error ERROR1

/-- `to_decimal_fractional` from csd.py: handle the fractional part of a
CSD string. -/
def to_decimal_fractional (csd : List Char) : Except String ℚ :=
  toDecimalFractionalAux csd (1 / 2) 0

/-- `to_decimal` from csd.py lines 224-255: decode the integral part; if
no dot was found return it, otherwise add the decoded fractional part. -/
def to_decimal (csd : List Char) : Except String ℚ := do
  let p ← to_decimal_integral csd
  if p.2 = 0 then
    return (p.1 : ℚ)
  else do
    let f ← to_decimal_fractional (csd.drop p.2)
    return (p.1 : ℚ) + f

/-- Loop of `to_decimal_using_pow` (csd.py lines 146-187): one pass with
a doubling accumulator, recording in `loc` the position after a dot. -/
def toDecimalUsingPowAux : List Char → ℕ → ℚ → ℕ → Except String (ℚ × ℕ)
  | [], _, acc, loc => .ok (acc, loc)
  | c :: rest, pos, acc, loc =>
    if c = '0' then toDecimalUsingPowAux rest (pos + 1) (acc * 2) loc
    else if c = '+' then toDecimalUsingPowAux rest (pos + 1) (acc * 2 + 1) loc
    else if c = '-' then toDecimalUsingPowAux rest (pos + 1) (acc * 2 - 1) loc
    else if c = '.' then toDecimalUsingPowAux rest (pos + 1) acc (pos + 1)
    else .error ERROR1

/-- `to_decimal_using_pow` from csd.py: after the pass, divide by
`2 ^ (len - loc)` when a dot was seen. -/
def to_decimal_using_pow (csd : List Char) : Except String ℚ := do
  let p ← toDecimalUsingPowAux csd 0 0 0
  if p.2 ≠ 0 then
    return p.1 / 2 ^ (csd.length - p.2)
  else
    return p.1

/-- Exponent bound from `to_csd_i`: Python's
`rem = ceil(log(abs(n) * 1.5, 2))`, i.e. the least `r` with
`2 ^ r ≥ 1.5 * |n|`, modelled exactly: that `r` is
`Nat.clog 2 (3 * |n|) - 1` (for `n ≠ 0` the clog is at least 2). -/
def csdRemI (n : ℤ) : ℕ := Nat.clog 2 (3 * n.natAbs) - 1

/-- Loop of `to_csd_i` (csd.py lines 130-142).  Fuel `f + 1` stands for
`p2n = 2 ^ (f + 1)`; the decision compares `det = 3 * v` with `±p2n` and
adjusts by `p2n >> 1 = 2 ^ f`; the loop stops when `p2n = 1`. -/
def toCsdILoop : ℕ → ℤ → List Char
  | 0, _ => []
  | f + 1, v =>
    if 3 * v > 2 ^ (f + 1) then '+' :: toCsdILoop f (v - 2 ^ f)
    else if 3 * v < -(2 ^ (f + 1)) then '-' :: toCsdILoop f (v + 2 ^ f)
    else '0' :: toCsdILoop f v

/-- `to_csd_i` from csd.py lines 101-143: integer to CSD string, with
the special case `0 → "0"`. -/
def to_csd_i (n : ℤ) : List Char :=
  if n = 0 then ['0'] else toCsdILoop (csdRemI n) n

/-- Loop of `to_csdnnz_i` (csd.py lines 355-372): like `toCsdILoop` but
decrementing the non-zero budget `nnz` on `+`/`-`; at the end of each
iteration, if `nnz == 0` the remaining value is forced to 0. -/
def toCsdnnzILoop : ℕ → ℤ → ℤ → List Char
  | 0, _, _ => []
  | f + 1, v, nnz =>
    if 3 * v > 2 ^ (f + 1) then
      '+' :: toCsdnnzILoop f (if nnz - 1 = 0 then 0 else v - 2 ^ f) (nnz - 1)
    else if 3 * v < -(2 ^ (f + 1)) then
      '-' :: toCsdnnzILoop f (if nnz - 1 = 0 then 0 else v + 2 ^ f) (nnz - 1)
    else
      '0' :: toCsdnnzILoop f (if nnz = 0 then 0 else v) nnz

/-- `to_csdnnz_i` from csd.py lines 317-372. -/
def to_csdnnz_i (n : ℤ) (nnz : ℤ) : List Char :=
  if n = 0 then ['0'] else toCsdnnzILoop (csdRemI n) n nnz

/-- Count of `+` and `-` characters (the non-zero digits) of a CSD
string, as in `csd.count("+") + csd.count("-")` of the test suite. -/
def countNZ (l : List Char) : ℕ := l.count '+' + l.count '-'

/-- One CSD digit character is non-zero. -/
def nzDigit (c : Char) : Bool := c = '+' || c = '-'

/-- No two consecutive characters are both non-zero digits. -/
def noAdjNZ : List Char → Bool
  | c :: d :: rest => (!(nzDigit c && nzDigit d)) && noAdjNZ (d :: rest)
  | _ => true

-- ### Lemmas on the integral decoder and the integer encoder

theorem foldAcc_append (acc : ℤ) (l : List Char) :
    foldAcc acc l = acc * 2 ^ l.length + foldVal l := by
  induction l generalizing acc with
  | nil => simp [foldAcc, foldVal]
  | cons c rest ih =>
    show foldAcc (2 * acc + dig c) rest = _
    rw [ih (2 * acc + dig c)]
    have h2 : foldVal (c :: rest) = dig c * 2 ^ rest.length + foldVal rest := by
      show foldAcc (2 * 0 + dig c) rest = _
      rw [ih (2 * 0 + dig c)]; ring
    rw [h2]
    simp [List.length_cons, pow_succ]
    ring

theorem invariant_zero {v : ℤ} (h : 3 * |v| ≤ 2 ^ 1) : v = 0 := by
  rcases abs_cases v with ⟨he, _⟩ | ⟨he, _⟩ <;> omega

theorem integralAux_zero (rest : List Char) (pos : ℕ) (acc : ℤ) :
    toDecimalIntegralAux ('0' :: rest) pos acc =
      toDecimalIntegralAux rest (pos + 1) (2 * acc) := rfl

theorem integralAux_plus (rest : List Char) (pos : ℕ) (acc : ℤ) :
    toDecimalIntegralAux ('+' :: rest) pos acc =
      toDecimalIntegralAux rest (pos + 1) (2 * acc + 1) := rfl

theorem integralAux_minus (rest : List Char) (pos : ℕ) (acc : ℤ) :
    toDecimalIntegralAux ('-' :: rest) pos acc =
      toDecimalIntegralAux rest (pos + 1) (2 * acc - 1) := rfl

theorem integralAux_dot (rest : List Char) (pos : ℕ) (acc : ℤ) :
    toDecimalIntegralAux ('.' :: rest) pos acc = .ok (acc, pos + 1) := rfl

theorem toCsdILoop_plus {f : ℕ} {v : ℤ} (h : 3 * v > 2 ^ (f + 1)) :
    toCsdILoop (f + 1) v = '+' :: toCsdILoop f (v - 2 ^ f) := by
  simp only [toCsdILoop]; rw [if_pos h]

theorem toCsdILoop_minus {f : ℕ} {v : ℤ} (h1 : ¬3 * v > 2 ^ (f + 1))
    (h2 : 3 * v < -(2 ^ (f + 1))) :
    toCsdILoop (f + 1) v = '-' :: toCsdILoop f (v + 2 ^ f) := by
  simp only [toCsdILoop]; rw [if_neg h1, if_pos h2]

theorem toCsdILoop_zero {f : ℕ} {v : ℤ} (h1 : ¬3 * v > 2 ^ (f + 1))
    (h2 : ¬3 * v < -(2 ^ (f + 1))) :
    toCsdILoop (f + 1) v = '0' :: toCsdILoop f v := by
  simp only [toCsdILoop]; rw [if_neg h1, if_neg h2]

theorem toCsdILoop_decode (f : ℕ) :
    ∀ (v : ℤ) (pos : ℕ) (acc : ℤ), 3 * |v| ≤ 2 ^ (f + 1) →
      toDecimalIntegralAux (toCsdILoop f v) pos acc = .ok (acc * 2 ^ f + v, 0) := by
  induction f with
  | zero =>
    intro v pos acc h
    have hv : v = 0 := invariant_zero h
    subst hv
    show Except.ok (acc, 0) = _
    norm_num
  | succ f ih =>
    intro v pos acc h
    have hp : (0:ℤ) < 2 ^ f := by positivity
    have hs : (2:ℤ) ^ (f + 1) = 2 * 2 ^ f := by ring
    have hss : (2:ℤ) ^ (f + 1 + 1) = 4 * 2 ^ f := by ring
    have hb : -(4 * 2 ^ f) ≤ 3 * v ∧ 3 * v ≤ 4 * 2 ^ f := by
      rcases abs_cases v with ⟨he, _⟩ | ⟨he, _⟩ <;> omega
    by_cases h1 : 3 * v > 2 ^ (f + 1)
    · rw [toCsdILoop_plus h1, integralAux_plus,
        ih (v - 2 ^ f) (pos + 1) (2 * acc + 1) (by
          rcases abs_cases (v - 2 ^ f) with ⟨he2, _⟩ | ⟨he2, _⟩ <;> omega)]
      have : (2 * acc + 1) * 2 ^ f + (v - 2 ^ f) = acc * 2 ^ (f + 1) + v := by
        rw [hs]; ring
      rw [this]
    · by_cases h2 : 3 * v < -(2 ^ (f + 1))
      · rw [toCsdILoop_minus h1 h2, integralAux_minus,
          ih (v + 2 ^ f) (pos + 1) (2 * acc - 1) (by
            rcases abs_cases (v + 2 ^ f) with ⟨he2, _⟩ | ⟨he2, _⟩ <;> omega)]
        have : (2 * acc - 1) * 2 ^ f + (v + 2 ^ f) = acc * 2 ^ (f + 1) + v := by
          rw [hs]; ring
        rw [this]
      · rw [toCsdILoop_zero h1 h2, integralAux_zero,
          ih v (pos + 1) (2 * acc) (by
            rcases abs_cases v with ⟨he2, _⟩ | ⟨he2, _⟩ <;> omega)]
        have : (2 * acc) * 2 ^ f + v = acc * 2 ^ (f + 1) + v := by
          rw [hs]; ring
        rw [this]

theorem csdRemI_bound (n : ℤ) (hn : n ≠ 0) :
    3 * |n| ≤ 2 ^ (csdRemI n + 1) := by
  have h1 : 1 ≤ n.natAbs := by
    rcases Int.natAbs_pos.mpr hn with h; omega
  have h3 : 3 ≤ 3 * n.natAbs := by omega
  have hclog : 2 ≤ Nat.clog 2 (3 * n.natAbs) := by
    by_contra hlt
    push_neg at hlt
    have h2 : Nat.clog 2 (3 * n.natAbs) ≤ 1 := by omega
    have := (Nat.le_pow_iff_clog_le (b := 2) (by norm_num)).mpr h2
    norm_num at this
    omega
  have hle : 3 * n.natAbs ≤ 2 ^ Nat.clog 2 (3 * n.natAbs) :=
    Nat.le_pow_clog (by norm_num) _
  have hrem : csdRemI n + 1 = Nat.clog 2 (3 * n.natAbs) := by
    unfold csdRemI; omega
  rw [hrem]
  have habs : |n| = (n.natAbs : ℤ) := Int.abs_eq_natAbs n
  rw [habs]
  exact_mod_cast hle

/-- C1: for every integer `n` (arbitrary precision: `ℤ`), decoding the
integer encoder's output returns `n` exactly:
`to_decimal (to_csd_i n) = n`. -/
theorem to_decimal_to_csd_i_roundtrip (n : ℤ) :
    to_decimal (to_csd_i n) = .ok (n : ℚ) := by
  by_cases hn : n = 0
  · subst hn; rfl
  · unfold to_csd_i
    rw [if_neg hn]
    unfold to_decimal to_decimal_integral
    rw [toCsdILoop_decode (csdRemI n) n 0 0 (csdRemI_bound n hn)]
    norm_num [Bind.bind, Except.bind, Pure.pure, Except.pure]

theorem noAdj_cons2 (c d : Char) (rest : List Char) :
    noAdjNZ (c :: d :: rest) = ((!(nzDigit c && nzDigit d)) && noAdjNZ (d :: rest)) := rfl

theorem toCsdILoop_small {f : ℕ} {v : ℤ} (h : 3 * |v| ≤ 2 ^ (f + 1)) :
    toCsdILoop (f + 1) v = '0' :: toCsdILoop f v := by
  have hs : (2:ℤ) ^ (f + 1) = 2 * 2 ^ f := by ring
  have h1 : ¬3 * v > 2 ^ (f + 1) := by
    rcases abs_cases v with ⟨he, _⟩ | ⟨he, _⟩ <;> omega
  have h2 : ¬3 * v < -(2 ^ (f + 1)) := by
    rcases abs_cases v with ⟨he, _⟩ | ⟨he, _⟩ <;> omega
  exact toCsdILoop_zero h1 h2

theorem toCsdILoop_noAdj (f : ℕ) :
    ∀ v : ℤ, 3 * |v| ≤ 2 ^ (f + 1) → noAdjNZ (toCsdILoop f v) = true := by
  induction f with
  | zero => intro v _; rfl
  | succ f ih =>
    intro v h
    have hp : (0:ℤ) < 2 ^ f := by positivity
    have hs : (2:ℤ) ^ (f + 1) = 2 * 2 ^ f := by ring
    have hss : (2:ℤ) ^ (f + 1 + 1) = 4 * 2 ^ f := by ring
    by_cases h1 : 3 * v > 2 ^ (f + 1)
    · rw [toCsdILoop_plus h1]
      have hsm : 3 * |v - 2 ^ f| ≤ 2 ^ f := by
        rcases abs_cases v with ⟨he, _⟩ | ⟨he, _⟩ <;>
          rcases abs_cases (v - 2 ^ f) with ⟨he2, _⟩ | ⟨he2, _⟩ <;> omega
      cases f with
      | zero =>
        have hv0 : v - 2 ^ 0 = 0 := by
          rcases abs_cases (v - 2 ^ 0) with ⟨he2, _⟩ | ⟨he2, _⟩ <;> omega
        rw [hv0]; rfl
      | succ g =>
        rw [toCsdILoop_small hsm]
        have htail := ih (v - 2 ^ (g + 1)) (le_trans hsm (by
          have : (2:ℤ) ^ (g + 1) ≤ 2 ^ (g + 1 + 1) := by
            apply pow_le_pow_right₀ <;> omega
          omega))
        rw [toCsdILoop_small hsm] at htail
        rw [noAdj_cons2]
        simp only [nzDigit]
        norm_num
        exact ⟨by decide, htail⟩
    · by_cases h2 : 3 * v < -(2 ^ (f + 1))
      · rw [toCsdILoop_minus h1 h2]
        have hsm : 3 * |v + 2 ^ f| ≤ 2 ^ f := by
          rcases abs_cases v with ⟨he, _⟩ | ⟨he, _⟩ <;>
            rcases abs_cases (v + 2 ^ f) with ⟨he2, _⟩ | ⟨he2, _⟩ <;> omega
        cases f with
        | zero =>
          have hv0 : v + 2 ^ 0 = 0 := by
            rcases abs_cases (v + 2 ^ 0) with ⟨he2, _⟩ | ⟨he2, _⟩ <;> omega
          rw [hv0]; rfl
        | succ g =>
          rw [toCsdILoop_small hsm]
          have htail := ih (v + 2 ^ (g + 1)) (le_trans hsm (by
            have : (2:ℤ) ^ (g + 1) ≤ 2 ^ (g + 1 + 1) := by
              apply pow_le_pow_right₀ <;> omega
            omega))
          rw [toCsdILoop_small hsm] at htail
          rw [noAdj_cons2]
          simp only [nzDigit]
          norm_num
          exact ⟨by decide, htail⟩
      · rw [toCsdILoop_zero h1 h2]
        have hsm : 3 * |v| ≤ 2 ^ (f + 1) := by
          rcases abs_cases v with ⟨he, _⟩ | ⟨he, _⟩ <;> omega
        have htail := ih v hsm
        cases hc : toCsdILoop f v with
        | nil => rfl
        | cons d rest =>
          rw [hc] at htail
          rw [noAdj_cons2]
          simp only [nzDigit]
          norm_num
          exact ⟨Or.inl (by decide), htail⟩

/-- C2: for every integer `n`, `to_csd_i n` has no two consecutive
characters that are both non-zero digits. -/
theorem to_csd_i_no_adjacent_nonzero (n : ℤ) : noAdjNZ (to_csd_i n) = true := by
  by_cases hn : n = 0
  · subst hn; rfl
  · unfold to_csd_i
    rw [if_neg hn]
    exact toCsdILoop_noAdj (csdRemI n) n (csdRemI_bound n hn)

-- ### Lemmas on the non-zero-bounded integer encoder

theorem toCsdnnzILoop_plus {f : ℕ} {v nnz : ℤ} (h : 3 * v > 2 ^ (f + 1)) :
    toCsdnnzILoop (f + 1) v nnz =
      '+' :: toCsdnnzILoop f (if nnz - 1 = 0 then 0 else v - 2 ^ f) (nnz - 1) := by
  simp only [toCsdnnzILoop]; rw [if_pos h]

theorem toCsdnnzILoop_minus {f : ℕ} {v nnz : ℤ} (h1 : ¬3 * v > 2 ^ (f + 1))
    (h2 : 3 * v < -(2 ^ (f + 1))) :
    toCsdnnzILoop (f + 1) v nnz =
      '-' :: toCsdnnzILoop f (if nnz - 1 = 0 then 0 else v + 2 ^ f) (nnz - 1) := by
  simp only [toCsdnnzILoop]; rw [if_neg h1, if_pos h2]

theorem toCsdnnzILoop_zero {f : ℕ} {v nnz : ℤ} (h1 : ¬3 * v > 2 ^ (f + 1))
    (h2 : ¬3 * v < -(2 ^ (f + 1))) :
    toCsdnnzILoop (f + 1) v nnz =
      '0' :: toCsdnnzILoop f (if nnz = 0 then 0 else v) nnz := by
  simp only [toCsdnnzILoop]; rw [if_neg h1, if_neg h2]

theorem toCsdnnzILoop_value_zero (f : ℕ) :
    ∀ nnz : ℤ, toCsdnnzILoop f 0 nnz = List.replicate f '0' := by
  induction f with
  | zero => intro _; rfl
  | succ f ih =>
    intro nnz
    have hp : (0:ℤ) < 2 ^ (f + 1) := by positivity
    rw [toCsdnnzILoop_zero (by omega) (by omega), ite_self, ih nnz]
    rfl

theorem countNZ_cons_plus (l : List Char) : countNZ ('+' :: l) = countNZ l + 1 := by
  simp [countNZ, List.count_cons]
  omega

theorem countNZ_cons_minus (l : List Char) : countNZ ('-' :: l) = countNZ l + 1 := by
  simp [countNZ, List.count_cons]
  omega

theorem countNZ_cons_zero (l : List Char) : countNZ ('0' :: l) = countNZ l := by
  simp [countNZ, List.count_cons]

theorem countNZ_replicate_zero (f : ℕ) : countNZ (List.replicate f '0') = 0 := by
  simp [countNZ, List.count_replicate]

theorem toCsdnnzILoop_count (f : ℕ) :
    ∀ (v nnz : ℤ), 1 ≤ nnz → (countNZ (toCsdnnzILoop f v nnz) : ℤ) ≤ nnz := by
  induction f with
  | zero =>
    intro v nnz h
    simp [toCsdnnzILoop, countNZ]
    omega
  | succ f ih =>
    intro v nnz h
    by_cases h1 : 3 * v > 2 ^ (f + 1)
    · rw [toCsdnnzILoop_plus h1, countNZ_cons_plus]
      by_cases h2 : nnz - 1 = 0
      · rw [if_pos h2, toCsdnnzILoop_value_zero, countNZ_replicate_zero]
        omega
      · rw [if_neg h2]
        have := ih (v - 2 ^ f) (nnz - 1) (by omega)
        push_cast at *
        omega
    · by_cases h2 : 3 * v < -(2 ^ (f + 1))
      · rw [toCsdnnzILoop_minus h1 h2, countNZ_cons_minus]
        by_cases h3 : nnz - 1 = 0
        · rw [if_pos h3, toCsdnnzILoop_value_zero, countNZ_replicate_zero]
          omega
        · rw [if_neg h3]
          have := ih (v + 2 ^ f) (nnz - 1) (by omega)
          push_cast at *
          omega
      · rw [toCsdnnzILoop_zero h1 h2, countNZ_cons_zero, if_neg (by omega : ¬nnz = 0)]
        exact ih v nnz h

/-- C3 counterexample: the claim fails at `n = 1`, `k = 0`: the budget
check `if nnz == 0` runs only after decrementing, so a budget of 0 is
never detected (it goes straight to -1) and `to_csdnnz_i 1 0 = "+"` has
one non-zero digit, more than `k = 0`. -/
theorem to_csdnnz_i_budget_fails_at_zero :
    (0:ℤ) ≤ 0 ∧ ¬((countNZ (to_csdnnz_i 1 0) : ℤ) ≤ 0) := by
  have hrem : csdRemI 1 = 1 := by
    unfold csdRemI
    norm_num [Nat.clog]
  have h1 : to_csdnnz_i 1 0 = ['+'] := by
    unfold to_csdnnz_i
    rw [if_neg (by norm_num), hrem]
    rfl
  rw [h1]
  refine ⟨le_refl 0, ?_⟩
  decide

/-- C3 (amended: `k ≥ 1` instead of `k ≥ 0`): for every integer `n` and
every integer `k ≥ 1`, `to_csdnnz_i n k` has at most `k` non-zero
digits.  (The repository's own property test uses `assume(max_nnz > 0)`,
excluding `k = 0` as well.) -/
theorem to_csdnnz_i_budget (n k : ℤ) (h : 1 ≤ k) :
    (countNZ (to_csdnnz_i n k) : ℤ) ≤ k := by
  by_cases hn : n = 0
  · subst hn
    unfold to_csdnnz_i
    rw [if_pos rfl]
    simp [countNZ]
    omega
  · unfold to_csdnnz_i
    rw [if_neg hn]
    exact toCsdnnzILoop_count (csdRemI n) n k h

/-- C3 witness: the amended bound at `n = 0`, `k = 1`. -/
theorem to_csdnnz_i_budget_witness : (countNZ (to_csdnnz_i 0 1) : ℤ) ≤ 1 :=
  to_csdnnz_i_budget 0 1 (by norm_num)

-- ### Error handling of the decoders (strict policy)

/-- The four characters the decoders accept. -/
def validChar (c : Char) : Prop := c = '+' ∨ c = '-' ∨ c = '0' ∨ c = '.'

instance (c : Char) : Decidable (validChar c) := by
  unfold validChar; infer_instance

theorem integralAux_bad {c : Char} (h : ¬validChar c) (rest : List Char)
    (pos : ℕ) (acc : ℤ) :
    toDecimalIntegralAux (c :: rest) pos acc = .error ERROR1 := by
  unfold validChar at h
  push_neg at h
  obtain ⟨hp, hm, hz, hd⟩ := h
  show (if c = '0' then _ else if c = '+' then _ else if c = '-' then _
    else if c = '.' then _ else Except.error ERROR1) = Except.error ERROR1
  rw [if_neg hz, if_neg hp, if_neg hm, if_neg hd]

theorem toDecimalIntegralAux_digits (a : List Char) :
    ∀ (rest : List Char) (pos : ℕ) (acc : ℤ),
      (∀ c ∈ a, c = '0' ∨ c = '+' ∨ c = '-') →
      toDecimalIntegralAux (a ++ rest) pos acc =
        toDecimalIntegralAux rest (pos + a.length) (foldAcc acc a) := by
  induction a with
  | nil => intro rest pos acc _; simp [foldAcc]
  | cons c a ih =>
    intro rest pos acc h
    have hc := h c (List.mem_cons_self c a)
    have htail : ∀ d ∈ a, d = '0' ∨ d = '+' ∨ d = '-' := by
      intro d hd; exact h d (List.mem_cons_of_mem c hd)
    rcases hc with hc | hc | hc <;> subst hc
    · rw [List.cons_append, integralAux_zero, ih rest (pos + 1) (2 * acc) htail]
      have h1 : foldAcc acc ('0' :: a) = foldAcc (2 * acc) a := by
        show foldAcc (2 * acc + dig '0') a = _
        rw [show dig '0' = 0 from rfl, add_zero]
      rw [h1, List.length_cons]
      congr 1
      omega
    · rw [List.cons_append, integralAux_plus, ih rest (pos + 1) (2 * acc + 1) htail]
      have h1 : foldAcc acc ('+' :: a) = foldAcc (2 * acc + 1) a := by
        show foldAcc (2 * acc + dig '+') a = _
        rw [show dig '+' = 1 from rfl]
        
      rw [h1, List.length_cons]
      congr 1
      omega
    · rw [List.cons_append, integralAux_minus, ih rest (pos + 1) (2 * acc - 1) htail]
      have h1 : foldAcc acc ('-' :: a) = foldAcc (2 * acc - 1) a := by
        show foldAcc (2 * acc + dig '-') a = _
        rw [show dig '-' = -1 from rfl, Int.add_neg_one]
      rw [h1, List.length_cons]
      congr 1
      omega

/-- Decoding the integral part of `a ++ "." ++ b` for digit-only `a`
returns the Horner value of `a` and the position just after the dot. -/
theorem to_decimal_integral_dot_split (a b : List Char)
    (ha : ∀ c ∈ a, c = '0' ∨ c = '+' ∨ c = '-') :
    to_decimal_integral (a ++ '.' :: b) = .ok (foldVal a, a.length + 1) := by
  unfold to_decimal_integral
  rw [toDecimalIntegralAux_digits a ('.' :: b) 0 0 ha, integralAux_dot]
  norm_num [foldVal]

theorem toDecimalIntegralAux_error (a : List Char) :
    ∀ (c : Char) (b : List Char) (pos : ℕ) (acc : ℤ), ¬validChar c → '.' ∉ a →
      toDecimalIntegralAux (a ++ c :: b) pos acc = .error ERROR1 := by
  induction a with
  | nil => intro c b pos acc hc _; exact integralAux_bad hc b pos acc
  | cons d a ih =>
    intro c b pos acc hc hdot
    have hd : d ≠ '.' := by intro he; exact hdot (he ▸ List.mem_cons_self d a)
    have hdot' : '.' ∉ a := fun hm => hdot (List.mem_cons_of_mem d hm)
    by_cases hvd : validChar d
    · rcases hvd with hv | hv | hv | hv
      · subst hv; rw [List.cons_append, integralAux_plus]; exact ih c b _ _ hc hdot'
      · subst hv; rw [List.cons_append, integralAux_minus]; exact ih c b _ _ hc hdot'
      · subst hv; rw [List.cons_append, integralAux_zero]; exact ih c b _ _ hc hdot'
      · exact absurd hv hd
    · rw [List.cons_append]; exact integralAux_bad hvd _ pos acc

theorem toDecimalUsingPowAux_error (l : List Char) :
    ∀ (pos : ℕ) (acc : ℚ) (loc : ℕ), (∃ c ∈ l, ¬validChar c) →
      toDecimalUsingPowAux l pos acc loc = .error ERROR1 := by
  induction l with
  | nil => intro pos acc loc h; simp at h
  | cons d l ih =>
    intro pos acc loc h
    by_cases hvd : validChar d
    · have hbad : ∃ c ∈ l, ¬validChar c := by
        obtain ⟨c, hcm, hcb⟩ := h
        rcases List.mem_cons.mp hcm with he | hm
        · exact absurd (he ▸ hvd) hcb
        · exact ⟨c, hm, hcb⟩
      rcases hvd with hv | hv | hv | hv <;> subst hv
      · show (if _ then _ else _) = _
        norm_num
        exact ih _ _ _ hbad
      · show (if _ then _ else _) = _
        norm_num
        exact ih _ _ _ hbad
      · show (if _ then _ else _) = _
        norm_num
        exact ih _ _ _ hbad
      · show (if _ then _ else _) = _
        norm_num
        exact ih _ _ _ hbad
    · unfold validChar at hvd
      push_neg at hvd
      obtain ⟨hp, hm, hz, hdot⟩ := hvd
      show (if d = '0' then _ else if d = '+' then _ else if d = '-' then _
        else if d = '.' then _ else Except.error ERROR1) = Except.error ERROR1
      rw [if_neg hz, if_neg hp, if_neg hm, if_neg hdot]

theorem toDecimalFractionalAux_error (l : List Char) :
    ∀ (scale acc : ℚ), (∃ c ∈ l, ¬(c = '0' ∨ c = '+' ∨ c = '-')) →
      toDecimalFractionalAux l scale acc = .error ERROR1 := by
  induction l with
  | nil => intro scale acc h; simp at h
  | cons d l ih =>
    intro scale acc h
    by_cases hvd : d = '0' ∨ d = '+' ∨ d = '-'
    · have hbad : ∃ c ∈ l, ¬(c = '0' ∨ c = '+' ∨ c = '-') := by
        obtain ⟨c, hcm, hcb⟩ := h
        rcases List.mem_cons.mp hcm with he | hm
        · exact absurd (he ▸ hvd) hcb
        · exact ⟨c, hm, hcb⟩
      rcases hvd with hv | hv | hv <;> subst hv
      · show (if _ then _ else _) = _
        norm_num
        exact ih _ _ hbad
      · show (if _ then _ else _) = _
        norm_num
        exact ih _ _ hbad
      · show (if _ then _ else _) = _
        norm_num
        exact ih _ _ hbad
    · push_neg at hvd
      obtain ⟨hz, hp, hm⟩ := hvd
      show (if d = '0' then _ else if d = '+' then _ else if d = '-' then _
        else Except.error ERROR1) = Except.error ERROR1
      rw [if_neg hz, if_neg hp, if_neg hm]

/-- Any string with an invalid character splits either at a first bad
character preceded by digits only, or at a first dot preceded by digits
only with the bad character after it. -/
theorem first_bad_split (s : List Char) (h : ∃ c ∈ s, ¬validChar c) :
    (∃ a c b, s = a ++ c :: b ∧ ¬validChar c ∧
      (∀ d ∈ a, d = '0' ∨ d = '+' ∨ d = '-')) ∨
    (∃ a b, s = a ++ '.' :: b ∧ (∀ d ∈ a, d = '0' ∨ d = '+' ∨ d = '-') ∧
      ∃ c ∈ b, ¬validChar c) := by
  induction s with
  | nil => simp at h
  | cons x t ih =>
    by_cases hvx : validChar x
    · have hbad : ∃ c ∈ t, ¬validChar c := by
        obtain ⟨c, hcm, hcb⟩ := h
        rcases List.mem_cons.mp hcm with he | hm
        · exact absurd (he ▸ hvx) hcb
        · exact ⟨c, hm, hcb⟩
      rcases hvx with hv | hv | hv | hv
      all_goals try subst hv
      · rcases ih hbad with ⟨a, c, b, he, hcb, ha⟩ | ⟨a, b, he, ha, hback⟩
        · exact Or.inl ⟨'+' :: a, c, b, by rw [he, List.cons_append], hcb, by
            intro d hd
            rcases List.mem_cons.mp hd with he2 | hm2
            · exact Or.inr (Or.inl he2)
            · exact ha d hm2⟩
        · exact Or.inr ⟨'+' :: a, b, by rw [he, List.cons_append], by
            intro d hd
            rcases List.mem_cons.mp hd with he2 | hm2
            · exact Or.inr (Or.inl he2)
            · exact ha d hm2, hback⟩
      · rcases ih hbad with ⟨a, c, b, he, hcb, ha⟩ | ⟨a, b, he, ha, hback⟩
        · exact Or.inl ⟨'-' :: a, c, b, by rw [he, List.cons_append], hcb, by
            intro d hd
            rcases List.mem_cons.mp hd with he2 | hm2
            · exact Or.inr (Or.inr he2)
            · exact ha d hm2⟩
        · exact Or.inr ⟨'-' :: a, b, by rw [he, List.cons_append], by
            intro d hd
            rcases List.mem_cons.mp hd with he2 | hm2
            · exact Or.inr (Or.inr he2)
            · exact ha d hm2, hback⟩
      · rcases ih hbad with ⟨a, c, b, he, hcb, ha⟩ | ⟨a, b, he, ha, hback⟩
        · exact Or.inl ⟨'0' :: a, c, b, by rw [he, List.cons_append], hcb, by
            intro d hd
            rcases List.mem_cons.mp hd with he2 | hm2
            · exact Or.inl he2
            · exact ha d hm2⟩
        · exact Or.inr ⟨'0' :: a, b, by rw [he, List.cons_append], by
            intro d hd
            rcases List.mem_cons.mp hd with he2 | hm2
            · exact Or.inl he2
            · exact ha d hm2, hback⟩
      · exact Or.inr ⟨[], t, rfl, by simp, hbad⟩
    · exact Or.inl ⟨[], x, t, rfl, hvx, by simp⟩

/-- C9 counterexample: `to_decimal_integral` does not fail on a string
containing `.`: at the first dot it returns the value decoded so far and
the position after the dot. -/
theorem to_decimal_integral_accepts_dot :
    ('.' ∈ (['.'] : List Char)) ∧ to_decimal_integral ['.'] = .ok (0, 1) := by
  constructor
  · exact List.mem_cons_self '.' []
  · rfl

/-- C9 (amended): on a string whose first dot is preceded by digit
characters only, `to_decimal_integral` returns (instead of failing) the
value of the prefix and the position just after the dot. -/
theorem to_decimal_integral_dot (a b : List Char)
    (ha : ∀ c ∈ a, c = '0' ∨ c = '+' ∨ c = '-') :
    to_decimal_integral (a ++ '.' :: b) = .ok (foldVal a, a.length + 1) :=
  to_decimal_integral_dot_split a b ha

/-- C9 witness: the amended statement at `"+.-"`. -/
theorem to_decimal_integral_dot_witness :
    to_decimal_integral (['+'] ++ '.' :: ['-']) = .ok (foldVal ['+'], 2) :=
  to_decimal_integral_dot ['+'] ['-'] (by decide)

/-- C10 counterexample: the claim fails for `to_decimal_integral` on
`".x"`: the string contains the invalid character `x`, yet the decoder
returns `(0, 1)` instead of raising, because it stops scanning at the
dot. -/
theorem to_decimal_integral_not_strict :
    ('x' ∈ (['.', 'x'] : List Char) ∧ ¬validChar 'x') ∧
      to_decimal_integral ['.', 'x'] = .ok (0, 1) := by
  refine ⟨⟨?_, ?_⟩, ?_⟩
  · decide
  · decide
  · rfl

/-- C10 (amended): for every string with a character outside
`{+, -, 0, .}`, `to_decimal_using_pow` and `to_decimal_fractional` raise
`ValueError ERROR1`, and so does `to_decimal` (so it never returns a
value for such input); `to_decimal_integral` raises provided no dot
precedes the offending character (otherwise it returns at the dot). -/
theorem decoders_strict (s : List Char) (h : ∃ c ∈ s, ¬validChar c) :
    to_decimal_using_pow s = .error ERROR1 ∧
    to_decimal_fractional s = .error ERROR1 ∧
    to_decimal s = .error ERROR1 ∧
    (∀ a c b, s = a ++ c :: b → ¬validChar c → '.' ∉ a →
      to_decimal_integral s = .error ERROR1) := by
  refine ⟨?_, ?_, ?_, ?_⟩
  · unfold to_decimal_using_pow
    rw [toDecimalUsingPowAux_error s 0 0 0 h]
    rfl
  · unfold to_decimal_fractional
    have h' : ∃ c ∈ s, ¬(c = '0' ∨ c = '+' ∨ c = '-') := by
      obtain ⟨c, hm, hb⟩ := h
      unfold validChar at hb
      push_neg at hb
      exact ⟨c, hm, by tauto⟩
    rw [toDecimalFractionalAux_error s (1 / 2) 0 h']
  · rcases first_bad_split s h with ⟨a, c, b, he, hcb, ha⟩ | ⟨a, b, he, ha, hback⟩
    · have herr : to_decimal_integral s = .error ERROR1 := by
        unfold to_decimal_integral
        rw [he]
        exact toDecimalIntegralAux_error a c b 0 0 hcb (by
          intro hm
          rcases ha '.' hm with h1 | h1 | h1 <;> simp at h1)
      unfold to_decimal
      rw [herr]
      rfl
    · have hok := to_decimal_integral_dot_split a b ha
      unfold to_decimal
      rw [he, hok]
      have hdrop : (a ++ '.' :: b).drop (a.length + 1) = b := by
        have : a ++ '.' :: b = (a ++ ['.']) ++ b := by simp
        rw [this]
        have hlen : (a ++ ['.']).length = a.length + 1 := by simp
        rw [← hlen, List.drop_left]
      have hfrac : to_decimal_fractional b = .error ERROR1 := by
        unfold to_decimal_fractional
        apply toDecimalFractionalAux_error
        obtain ⟨c, hm, hb⟩ := hback
        unfold validChar at hb
        push_neg at hb
        exact ⟨c, hm, by tauto⟩
      simp only [Bind.bind, Except.bind]
      rw [if_neg (by omega : ¬(a.length + 1 = 0)), hdrop, hfrac]
  · intro a c b he hcb hdot
    unfold to_decimal_integral
    rw [he]
    exact toDecimalIntegralAux_error a c b 0 0 hcb hdot

/-- C10 witness: the amended statement at the one-character string
`"x"`. -/
theorem decoders_strict_witness :
    to_decimal_using_pow ['x'] = .error ERROR1 ∧
    to_decimal_fractional ['x'] = .error ERROR1 ∧
    to_decimal ['x'] = .error ERROR1 ∧
    (∀ a c b, (['x'] : List Char) = a ++ c :: b → ¬validChar c → '.' ∉ a →
      to_decimal_integral ['x'] = .error ERROR1) :=
  decoders_strict ['x'] ⟨'x', by decide, by decide⟩

-- ### Agreement of the two decoding strategies

theorem foldVal_cons (c : Char) (l : List Char) :
    foldVal (c :: l) = dig c * 2 ^ l.length + foldVal l := by
  show foldAcc (2 * 0 + dig c) l = _
  rw [foldAcc_append]
  ring

theorem powAux_zero (rest : List Char) (pos : ℕ) (acc : ℚ) (loc : ℕ) :
    toDecimalUsingPowAux ('0' :: rest) pos acc loc =
      toDecimalUsingPowAux rest (pos + 1) (acc * 2) loc := rfl

theorem powAux_plus (rest : List Char) (pos : ℕ) (acc : ℚ) (loc : ℕ) :
    toDecimalUsingPowAux ('+' :: rest) pos acc loc =
      toDecimalUsingPowAux rest (pos + 1) (acc * 2 + 1) loc := rfl

theorem powAux_minus (rest : List Char) (pos : ℕ) (acc : ℚ) (loc : ℕ) :
    toDecimalUsingPowAux ('-' :: rest) pos acc loc =
      toDecimalUsingPowAux rest (pos + 1) (acc * 2 - 1) loc := rfl

theorem powAux_dot (rest : List Char) (pos : ℕ) (acc : ℚ) (loc : ℕ) :
    toDecimalUsingPowAux ('.' :: rest) pos acc loc =
      toDecimalUsingPowAux rest (pos + 1) acc (pos + 1) := rfl

theorem usingPowAux_digits (a : List Char) :
    ∀ (rest : List Char) (pos : ℕ) (acc : ℚ) (loc : ℕ),
      (∀ c ∈ a, c = '0' ∨ c = '+' ∨ c = '-') →
      toDecimalUsingPowAux (a ++ rest) pos acc loc =
        toDecimalUsingPowAux rest (pos + a.length) (acc * 2 ^ a.length + (foldVal a : ℚ)) loc := by
  induction a with
  | nil =>
    intro rest pos acc loc _
    show toDecimalUsingPowAux rest pos acc loc = _
    norm_num [foldVal, foldAcc]
  | cons c a ih =>
    intro rest pos acc loc h
    have hc := h c (List.mem_cons_self c a)
    have htail : ∀ d ∈ a, d = '0' ∨ d = '+' ∨ d = '-' := fun d hd =>
      h d (List.mem_cons_of_mem c hd)
    have hlen : ∀ q : ℚ, q ^ (c :: a).length = q ^ a.length * q := by
      intro q
      rw [List.length_cons, pow_succ]
    rcases hc with hc | hc | hc <;> subst hc
    · rw [List.cons_append, powAux_zero, ih rest (pos + 1) (acc * 2) loc htail]
      have h1 : (pos + 1) + a.length = pos + ('0' :: a).length := by
        rw [List.length_cons]; omega
      have h2 : acc * 2 * 2 ^ a.length + (foldVal a : ℚ) =
          acc * 2 ^ ('0' :: a).length + (foldVal ('0' :: a) : ℚ) := by
        rw [foldVal_cons, hlen, show dig '0' = 0 from rfl]
        push_cast
        ring
      rw [h1, h2]
    · rw [List.cons_append, powAux_plus, ih rest (pos + 1) (acc * 2 + 1) loc htail]
      have h1 : (pos + 1) + a.length = pos + ('+' :: a).length := by
        rw [List.length_cons]; omega
      have h2 : (acc * 2 + 1) * 2 ^ a.length + (foldVal a : ℚ) =
          acc * 2 ^ ('+' :: a).length + (foldVal ('+' :: a) : ℚ) := by
        rw [foldVal_cons, hlen, show dig '+' = 1 from rfl]
        push_cast
        ring
      rw [h1, h2]
    · rw [List.cons_append, powAux_minus, ih rest (pos + 1) (acc * 2 - 1) loc htail]
      have h1 : (pos + 1) + a.length = pos + ('-' :: a).length := by
        rw [List.length_cons]; omega
      have h2 : (acc * 2 - 1) * 2 ^ a.length + (foldVal a : ℚ) =
          acc * 2 ^ ('-' :: a).length + (foldVal ('-' :: a) : ℚ) := by
        rw [foldVal_cons, hlen, show dig '-' = -1 from rfl]
        push_cast
        ring
      rw [h1, h2]

theorem fracAux_digits (b : List Char) :
    ∀ (scale acc : ℚ), (∀ c ∈ b, c = '0' ∨ c = '+' ∨ c = '-') →
      toDecimalFractionalAux b scale acc =
        .ok (acc + scale * 2 * (foldVal b : ℚ) / 2 ^ b.length) := by
  induction b with
  | nil =>
    intro scale acc _
    show Except.ok acc = _
    norm_num [foldVal, foldAcc]
  | cons c b ih =>
    intro scale acc h
    have hc := h c (List.mem_cons_self c b)
    have htail : ∀ d ∈ b, d = '0' ∨ d = '+' ∨ d = '-' := fun d hd =>
      h d (List.mem_cons_of_mem c hd)
    have hpow : (2:ℚ) ^ b.length ≠ 0 := by positivity
    rcases hc with hc | hc | hc <;> subst hc
    · show toDecimalFractionalAux b (scale / 2) acc = _
      rw [ih (scale / 2) acc htail]
      congr 1
      rw [foldVal_cons, List.length_cons, show dig '0' = 0 from rfl]
      push_cast
      field_simp
      ring
    · show toDecimalFractionalAux b (scale / 2) (acc + scale) = _
      rw [ih (scale / 2) (acc + scale) htail]
      congr 1
      rw [foldVal_cons, List.length_cons, show dig '+' = 1 from rfl]
      push_cast
      field_simp
      ring
    · show toDecimalFractionalAux b (scale / 2) (acc - scale) = _
      rw [ih (scale / 2) (acc - scale) htail]
      congr 1
      rw [foldVal_cons, List.length_cons, show dig '-' = -1 from rfl]
      push_cast
      field_simp
      ring

theorem drop_after_dot (x : Char) (a b : List Char) :
    (a ++ x :: b).drop (a.length + 1) = b := by
  have h1 : a ++ x :: b = (a ++ [x]) ++ b := by simp
  rw [h1]
  have hlen : (a ++ [x]).length = a.length + 1 := by simp
  rw [← hlen, List.drop_left]

theorem first_mem_split (l : List Char) (x : Char) (h : x ∈ l) :
    ∃ a b, l = a ++ x :: b ∧ x ∉ a := by
  induction l with
  | nil => simp at h
  | cons c t ih =>
    by_cases hc : c = x
    · subst hc
      exact ⟨[], t, rfl, by simp⟩
    · have hxt : x ∈ t := by
        rcases List.mem_cons.mp h with he | hm
        · exact absurd he.symm hc
        · exact hm
      obtain ⟨a, b, he, hna⟩ := ih hxt
      refine ⟨c :: a, b, by rw [he, List.cons_append], ?_⟩
      intro hm
      rcases List.mem_cons.mp hm with he2 | hm2
      · exact hc he2.symm
      · exact hna hm2

/-- Decoding a dot-free digit string with `to_decimal`. -/
theorem to_decimal_nodot (s : List Char)
    (hd : ∀ c ∈ s, c = '0' ∨ c = '+' ∨ c = '-') :
    to_decimal s = .ok ((foldVal s : ℤ) : ℚ) := by
  unfold to_decimal to_decimal_integral
  have h1 := toDecimalIntegralAux_digits s [] 0 0 hd
  rw [List.append_nil] at h1
  rw [h1]
  show Except.ok ((foldAcc 0 s : ℤ) : ℚ) = _
  rfl

/-- Decoding a dot-free digit string with `to_decimal_using_pow`. -/
theorem to_decimal_using_pow_nodot (s : List Char)
    (hd : ∀ c ∈ s, c = '0' ∨ c = '+' ∨ c = '-') :
    to_decimal_using_pow s = .ok ((foldVal s : ℤ) : ℚ) := by
  unfold to_decimal_using_pow
  have h1 := usingPowAux_digits s [] 0 0 0 hd
  rw [List.append_nil] at h1
  rw [h1]
  norm_num [toDecimalUsingPowAux, Bind.bind, Except.bind, Pure.pure, Except.pure]

/-- C5: on every valid CSD string (characters among `+`, `-`, `0`, `.`
with at most one dot) the two decoding strategies agree. -/
theorem to_decimal_eq_to_decimal_using_pow (s : List Char)
    (hv : ∀ c ∈ s, validChar c) (hdot : s.count '.' ≤ 1) :
    to_decimal s = to_decimal_using_pow s := by
  by_cases hd : '.' ∈ s
  · obtain ⟨a, b, he, hna⟩ := first_mem_split s '.' hd
    subst he
    have hda : ∀ c ∈ a, c = '0' ∨ c = '+' ∨ c = '-' := by
      intro c hc
      have h1 := hv c (by simp [hc])
      have hne : c ≠ '.' := fun he2 => hna (he2 ▸ hc)
      unfold validChar at h1
      tauto
    have hcb : b.count '.' = 0 := by
      simp only [List.count_append, List.count_cons] at hdot
      norm_num at hdot
      omega
    have hdb : ∀ c ∈ b, c = '0' ∨ c = '+' ∨ c = '-' := by
      intro c hc
      have h1 := hv c (by simp [hc])
      have hne : c ≠ '.' := by
        intro he2
        subst he2
        exact List.count_eq_zero.mp hcb hc
      unfold validChar at h1
      tauto
    have hpb : (2:ℚ) ^ b.length ≠ 0 := by positivity
    have hside1 : to_decimal (a ++ '.' :: b) =
        .ok (((foldVal a : ℤ) : ℚ) + (0 + 1 / 2 * 2 * ((foldVal b : ℤ) : ℚ) / 2 ^ b.length)) := by
      unfold to_decimal
      rw [to_decimal_integral_dot_split a b hda]
      simp only [Bind.bind, Except.bind]
      rw [if_neg (show ¬(a.length + 1 = 0) by omega), drop_after_dot]
      show Except.bind (to_decimal_fractional b) _ = _
      unfold to_decimal_fractional
      rw [fracAux_digits b (1 / 2) 0 hdb]
      rfl
    have hside2 : to_decimal_using_pow (a ++ '.' :: b) =
        .ok (((0 * 2 ^ a.length + ((foldVal a : ℤ) : ℚ)) * 2 ^ b.length +
          ((foldVal b : ℤ) : ℚ)) / 2 ^ b.length) := by
      unfold to_decimal_using_pow
      have h1 := usingPowAux_digits a ('.' :: b) 0 0 0 hda
      have h2 := usingPowAux_digits b [] (0 + a.length + 1)
        (0 * 2 ^ a.length + ((foldVal a : ℤ) : ℚ)) (0 + a.length + 1) hdb
      rw [List.append_nil] at h2
      rw [h1, powAux_dot, h2]
      have hlen : (a ++ '.' :: b).length - (0 + a.length + 1) = b.length := by
        rw [List.length_append, List.length_cons]
        omega
      show Except.bind (Except.ok _) _ = _
      simp only [Bind.bind, Except.bind]
      rw [if_pos (show (0 + a.length + 1 : ℕ) ≠ 0 by omega), hlen]
      rfl
    rw [hside1, hside2]
    congr 1
    field_simp
  · have hda : ∀ c ∈ s, c = '0' ∨ c = '+' ∨ c = '-' := by
      intro c hc
      have h1 := hv c hc
      have hne : c ≠ '.' := fun he2 => hd (he2 ▸ hc)
      unfold validChar at h1
      tauto
    rw [to_decimal_nodot s hda, to_decimal_using_pow_nodot s hda]

/-- C5 witness: both strategies decode `"+00-00.+"` the same way. -/
theorem to_decimal_eq_to_decimal_using_pow_witness :
    to_decimal ['+', '0', '0', '-', '0', '0', '.', '+'] =
      to_decimal_using_pow ['+', '0', '0', '-', '0', '0', '.', '+'] :=
  to_decimal_eq_to_decimal_using_pow ['+', '0', '0', '-', '0', '0', '.', '+']
    (by decide) (by decide)

-- ### The fixed-point encoder `to_csd`, over exact rationals

/-- Exponent from `to_csd` for `|v| ≥ 1`: Python's
`rem = int(ceil(log(absnum * 1.5, 2)))`, modelled exactly as the least
`r` with `2 ^ r ≥ 1.5 * q`, i.e. `Nat.clog 2 ⌈3 q⌉ - 1`. -/
def csdRemQ (q : ℚ) : ℕ := Nat.clog 2 (⌈3 * q⌉.toNat) - 1

/-- Loop body of `to_csd` (csd.py lines 78-91, `loop_fn`): fuel `f`
counts the remaining iterations; the digit processed at fuel `f + 1` has
weight `p2n = 2 ^ e` (the source halves `p2n` at the top of the loop, so
the comparison `det = 1.5 * value` against `p2n` and the adjustment both
use the digit's weight).  Returns the digits and the final remainder. -/
def toCsdGo : ℕ → ℤ → ℚ → List Char × ℚ
  | 0, _, v => ([], v)
  | f + 1, e, v =>
    if 3 / 2 * v > 2 ^ e then
      ('+' :: (toCsdGo f (e - 1) (v - 2 ^ e)).1, (toCsdGo f (e - 1) (v - 2 ^ e)).2)
    else if 3 / 2 * v < -(2 ^ e) then
      ('-' :: (toCsdGo f (e - 1) (v + 2 ^ e)).1, (toCsdGo f (e - 1) (v + 2 ^ e)).2)
    else
      ('0' :: (toCsdGo f (e - 1) v).1, (toCsdGo f (e - 1) v).2)

/-- `to_csd` from csd.py lines 38-98: values below 1 in absolute value
start with an explicit `0` and skip the integral loop; then the dot is
appended and the fractional loop runs `places` times down to weight
`2 ^ (-places)`. -/
def to_csd (v : ℚ) (places : ℕ) : List Char :=
  if |v| < 1 then
    '0' :: '.' :: (toCsdGo places (-1) v).1
  else
    ((toCsdGo (csdRemQ |v|) ((csdRemQ |v| : ℤ) - 1) v).1 ++
      '.' :: (toCsdGo places (-1) (toCsdGo (csdRemQ |v|) ((csdRemQ |v| : ℤ) - 1) v).2).1)

theorem toCsdGo_plus {f : ℕ} {e : ℤ} {v : ℚ} (h : 3 / 2 * v > 2 ^ e) :
    toCsdGo (f + 1) e v =
      ('+' :: (toCsdGo f (e - 1) (v - 2 ^ e)).1, (toCsdGo f (e - 1) (v - 2 ^ e)).2) := by
  simp only [toCsdGo]
  rw [if_pos h]

theorem toCsdGo_minus {f : ℕ} {e : ℤ} {v : ℚ} (h1 : ¬3 / 2 * v > 2 ^ e)
    (h2 : 3 / 2 * v < -(2 ^ e)) :
    toCsdGo (f + 1) e v =
      ('-' :: (toCsdGo f (e - 1) (v + 2 ^ e)).1, (toCsdGo f (e - 1) (v + 2 ^ e)).2) := by
  simp only [toCsdGo]
  rw [if_neg h1, if_pos h2]

theorem toCsdGo_zero {f : ℕ} {e : ℤ} {v : ℚ} (h1 : ¬3 / 2 * v > 2 ^ e)
    (h2 : ¬3 / 2 * v < -(2 ^ e)) :
    toCsdGo (f + 1) e v =
      ('0' :: (toCsdGo f (e - 1) v).1, (toCsdGo f (e - 1) v).2) := by
  simp only [toCsdGo]
  rw [if_neg h1, if_neg h2]

theorem toCsdGo_length (f : ℕ) :
    ∀ (e : ℤ) (v : ℚ), (toCsdGo f e v).1.length = f := by
  induction f with
  | zero => intro e v; rfl
  | succ f ih =>
    intro e v
    by_cases h1 : 3 / 2 * v > 2 ^ e
    · rw [toCsdGo_plus h1]; simp [ih]
    · by_cases h2 : 3 / 2 * v < -(2 ^ e)
      · rw [toCsdGo_minus h1 h2]; simp [ih]
      · rw [toCsdGo_zero h1 h2]; simp [ih]

theorem toCsdGo_valid (f : ℕ) :
    ∀ (e : ℤ) (v : ℚ) (c : Char), c ∈ (toCsdGo f e v).1 →
      c = '0' ∨ c = '+' ∨ c = '-' := by
  induction f with
  | zero => intro e v c hc; simp [toCsdGo] at hc
  | succ f ih =>
    intro e v c hc
    by_cases h1 : 3 / 2 * v > 2 ^ e
    · rw [toCsdGo_plus h1] at hc
      rcases List.mem_cons.mp hc with he | hm
      · exact Or.inr (Or.inl he)
      · exact ih (e - 1) (v - 2 ^ e) c hm
    · by_cases h2 : 3 / 2 * v < -(2 ^ e)
      · rw [toCsdGo_minus h1 h2] at hc
        rcases List.mem_cons.mp hc with he | hm
        · exact Or.inr (Or.inr he)
        · exact ih (e - 1) (v + 2 ^ e) c hm
      · rw [toCsdGo_zero h1 h2] at hc
        rcases List.mem_cons.mp hc with he | hm
        · exact Or.inl he
        · exact ih (e - 1) v c hm

theorem toCsdGo_value (f : ℕ) :
    ∀ (e : ℤ) (v : ℚ),
      ((foldVal (toCsdGo f e v).1 : ℤ) : ℚ) * 2 ^ (e + 1 - (f : ℤ)) +
        (toCsdGo f e v).2 = v := by
  induction f with
  | zero =>
    intro e v
    show ((foldVal [] : ℤ) : ℚ) * _ + v = v
    norm_num [foldVal, foldAcc]
  | succ f ih =>
    intro e v
    have hkey : (2:ℚ) ^ ((f : ℤ)) * 2 ^ (e - (f : ℤ)) = 2 ^ e := by
      rw [← zpow_add₀ (two_ne_zero)]
      congr 1
      ring
    have hcast : ((f + 1 : ℕ) : ℤ) = (f : ℤ) + 1 := by push_cast; ring
    have hE : e + 1 - ((f : ℤ) + 1) = e - (f : ℤ) := by ring
    have hE2 : e - 1 + 1 - (f : ℤ) = e - (f : ℤ) := by ring
    by_cases h1 : 3 / 2 * v > 2 ^ e
    · rw [toCsdGo_plus h1]
      have ihx := ih (e - 1) (v - 2 ^ e)
      rw [hE2] at ihx
      show ((foldVal ('+' :: (toCsdGo f (e - 1) (v - 2 ^ e)).1) : ℤ) : ℚ) *
        2 ^ (e + 1 - ((f + 1 : ℕ) : ℤ)) + (toCsdGo f (e - 1) (v - 2 ^ e)).2 = v
      rw [hcast, hE, foldVal_cons, toCsdGo_length, show dig '+' = 1 from rfl]
      push_cast
      rw [← zpow_natCast (2:ℚ) f]
      nlinarith [ihx, hkey]
    · by_cases h2 : 3 / 2 * v < -(2 ^ e)
      · rw [toCsdGo_minus h1 h2]
        have ihx := ih (e - 1) (v + 2 ^ e)
        rw [hE2] at ihx
        show ((foldVal ('-' :: (toCsdGo f (e - 1) (v + 2 ^ e)).1) : ℤ) : ℚ) *
          2 ^ (e + 1 - ((f + 1 : ℕ) : ℤ)) + (toCsdGo f (e - 1) (v + 2 ^ e)).2 = v
        rw [hcast, hE, foldVal_cons, toCsdGo_length, show dig '-' = -1 from rfl]
        push_cast
        rw [← zpow_natCast (2:ℚ) f]
        nlinarith [ihx, hkey]
      · rw [toCsdGo_zero h1 h2]
        have ihx := ih (e - 1) v
        rw [hE2] at ihx
        show ((foldVal ('0' :: (toCsdGo f (e - 1) v).1) : ℤ) : ℚ) *
          2 ^ (e + 1 - ((f + 1 : ℕ) : ℤ)) + (toCsdGo f (e - 1) v).2 = v
        rw [hcast, hE, foldVal_cons, toCsdGo_length, show dig '0' = 0 from rfl]
        push_cast
        linarith [ihx]

theorem toCsdGo_bound (f : ℕ) :
    ∀ (e : ℤ) (v : ℚ), |v| ≤ 2 ^ (e + 1) →
      |(toCsdGo f e v).2| ≤ 2 ^ (e + 1 - (f : ℤ)) := by
  induction f with
  | zero =>
    intro e v h
    show |v| ≤ _
    rw [show e + 1 - ((0 : ℕ) : ℤ) = e + 1 by push_cast; ring]
    exact h
  | succ f ih =>
    intro e v h
    have hp : (0:ℚ) < 2 ^ e := zpow_pos (by norm_num) e
    have h2e : (2:ℚ) ^ (e + 1) = 2 ^ e * 2 := zpow_add_one₀ (two_ne_zero) e
    have hcast : ((f + 1 : ℕ) : ℤ) = (f : ℤ) + 1 := by push_cast; ring
    have hE : e + 1 - ((f : ℤ) + 1) = e - 1 + 1 - (f : ℤ) := by ring
    have hsub : e - 1 + 1 = e := by ring
    by_cases h1 : 3 / 2 * v > 2 ^ e
    · rw [toCsdGo_plus h1]
      show |(toCsdGo f (e - 1) (v - 2 ^ e)).2| ≤ 2 ^ (e + 1 - ((f + 1 : ℕ) : ℤ))
      rw [hcast, hE]
      apply ih
      rw [hsub]
      have hub : v - 2 ^ e ≤ 2 ^ e := by
        have := le_abs_self v
        rw [h2e] at h
        linarith
      have hlb : -(2 ^ e) ≤ v - 2 ^ e := by linarith
      exact abs_le.mpr ⟨hlb, hub⟩
    · by_cases h2 : 3 / 2 * v < -(2 ^ e)
      · rw [toCsdGo_minus h1 h2]
        show |(toCsdGo f (e - 1) (v + 2 ^ e)).2| ≤ 2 ^ (e + 1 - ((f + 1 : ℕ) : ℤ))
        rw [hcast, hE]
        apply ih
        rw [hsub]
        have hub : v + 2 ^ e ≤ 2 ^ e := by linarith
        have hlb : -(2 ^ e) ≤ v + 2 ^ e := by
          have := neg_abs_le v
          rw [h2e] at h
          linarith
        exact abs_le.mpr ⟨hlb, hub⟩
      · rw [toCsdGo_zero h1 h2]
        show |(toCsdGo f (e - 1) v).2| ≤ 2 ^ (e + 1 - ((f + 1 : ℕ) : ℤ))
        rw [hcast, hE]
        apply ih
        rw [hsub]
        exact abs_le.mpr ⟨by linarith, by linarith⟩

theorem csdRemQ_bound (q : ℚ) (hq : 1 ≤ q) :
    3 * q ≤ 2 ^ (csdRemQ q + 1) := by
  have h3 : (3:ℚ) ≤ 3 * q := by linarith
  have hceil : (3:ℤ) ≤ ⌈3 * q⌉ := by
    have h4 : (3:ℚ) ≤ (⌈3 * q⌉ : ℚ) := le_trans h3 (Int.le_ceil (3 * q))
    exact_mod_cast h4
  have htn : (3:ℕ) ≤ ⌈3 * q⌉.toNat := by omega
  have hclog : 2 ≤ Nat.clog 2 ⌈3 * q⌉.toNat := by
    by_contra hlt
    push_neg at hlt
    have h2 : Nat.clog 2 ⌈3 * q⌉.toNat ≤ 1 := by omega
    have h5 := (Nat.le_pow_iff_clog_le (b := 2) (by norm_num)).mpr h2
    norm_num at h5
    omega
  have hle : ⌈3 * q⌉.toNat ≤ 2 ^ Nat.clog 2 ⌈3 * q⌉.toNat :=
    Nat.le_pow_clog (by norm_num) _
  have hrem : csdRemQ q + 1 = Nat.clog 2 ⌈3 * q⌉.toNat := by
    unfold csdRemQ
    omega
  rw [hrem]
  calc 3 * q ≤ (⌈3 * q⌉ : ℚ) := Int.le_ceil _
    _ = ((⌈3 * q⌉.toNat : ℕ) : ℚ) := by
        rw [show ((⌈3 * q⌉.toNat : ℕ) : ℚ) = ((⌈3 * q⌉.toNat : ℤ) : ℚ) by push_cast; rfl,
          Int.toNat_of_nonneg (by omega)]
    _ ≤ ((2 ^ Nat.clog 2 ⌈3 * q⌉.toNat : ℕ) : ℚ) := by exact_mod_cast hle
    _ = 2 ^ Nat.clog 2 ⌈3 * q⌉.toNat := by push_cast; rfl

/-- Decoding `a ++ "." ++ b` for digit-only `a` and `b`. -/
theorem to_decimal_dot_value (a b : List Char)
    (hda : ∀ c ∈ a, c = '0' ∨ c = '+' ∨ c = '-')
    (hdb : ∀ c ∈ b, c = '0' ∨ c = '+' ∨ c = '-') :
    to_decimal (a ++ '.' :: b) =
      .ok (((foldVal a : ℤ) : ℚ) +
        (0 + 1 / 2 * 2 * ((foldVal b : ℤ) : ℚ) / 2 ^ b.length)) := by
  unfold to_decimal
  rw [to_decimal_integral_dot_split a b hda]
  simp only [Bind.bind, Except.bind]
  rw [if_neg (show ¬(a.length + 1 = 0) by omega), drop_after_dot]
  show Except.bind (to_decimal_fractional b) _ = _
  unfold to_decimal_fractional
  rw [fracAux_digits b (1 / 2) 0 hdb]
  rfl

/-- C6: `to_csd v places` always consists of digit characters with
exactly one `.`, with exactly `places` digit characters after it; and
`to_csd 0 0 = "0."`. -/
theorem to_csd_dot_structure :
    (∀ (v : ℚ) (places : ℕ), ∃ a b, to_csd v places = a ++ '.' :: b ∧
      (∀ c ∈ a, c = '0' ∨ c = '+' ∨ c = '-') ∧
      (∀ c ∈ b, c = '0' ∨ c = '+' ∨ c = '-') ∧ b.length = places) ∧
    to_csd 0 0 = ['0', '.'] := by
  constructor
  · intro v places
    unfold to_csd
    by_cases habs : |v| < 1
    · rw [if_pos habs]
      refine ⟨['0'], (toCsdGo places (-1) v).1, rfl, ?_, ?_, ?_⟩
      · intro c hc
        simp at hc
        subst hc
        exact Or.inl rfl
      · exact fun c hc => toCsdGo_valid places (-1) v c hc
      · exact toCsdGo_length places (-1) v
    · rw [if_neg habs]
      refine ⟨(toCsdGo (csdRemQ |v|) ((csdRemQ |v| : ℤ) - 1) v).1,
        (toCsdGo places (-1) (toCsdGo (csdRemQ |v|) ((csdRemQ |v| : ℤ) - 1) v).2).1,
        rfl, ?_, ?_, ?_⟩
      · exact fun c hc => toCsdGo_valid _ _ _ c hc
      · exact fun c hc => toCsdGo_valid _ _ _ c hc
      · exact toCsdGo_length _ _ _
  · rfl

/-- C4: for every value `v` (Python float modelled as exact rational)
and every `places ≥ 1`, decoding the fixed-point encoding recovers `v`
within precision: `|to_decimal (to_csd v places) - v| < 2 ^ (-places + 1)`. -/
theorem to_csd_roundtrip_precision (v : ℚ) (places : ℕ) (hp1 : 1 ≤ places) :
    ∃ w, to_decimal (to_csd v places) = .ok w ∧
      |w - v| < 2 ^ (-(places : ℤ) + 1) := by
  have hfin : (2:ℚ) ^ (-(places : ℤ)) < 2 ^ (-(places : ℤ) + 1) :=
    zpow_lt_zpow_right₀ one_lt_two (by omega)
  have hzp : (2:ℚ) ^ (-(places : ℤ)) = ((2:ℚ) ^ (places : ℕ))⁻¹ := by
    rw [zpow_neg, zpow_natCast]
  by_cases habs : |v| < 1
  · have hcsd : to_csd v places = ['0'] ++ '.' :: (toCsdGo places (-1) v).1 := by
      unfold to_csd
      rw [if_pos habs]
      rfl
    have hdec := to_decimal_dot_value ['0'] (toCsdGo places (-1) v).1
      (by intro c hc; simp at hc; subst hc; exact Or.inl rfl)
      (fun c hc => toCsdGo_valid places (-1) v c hc)
    have hval := toCsdGo_value places (-1) v
    rw [show (-1 : ℤ) + 1 - (places : ℤ) = -(places : ℤ) by ring, hzp] at hval
    have hbnd := toCsdGo_bound places (-1) v (by
      rw [show (-1 : ℤ) + 1 = 0 by ring, zpow_zero]
      exact le_of_lt habs)
    rw [show (-1 : ℤ) + 1 - (places : ℤ) = -(places : ℤ) by ring] at hbnd
    refine ⟨_, by rw [hcsd]; exact hdec, ?_⟩
    rw [toCsdGo_length places (-1) v]
    have hw : ((foldVal ['0'] : ℤ) : ℚ) +
        (0 + 1 / 2 * 2 * ((foldVal (toCsdGo places (-1) v).1 : ℤ) : ℚ) / 2 ^ places) - v =
        -(toCsdGo places (-1) v).2 := by
      rw [show (foldVal ['0'] : ℤ) = 0 from rfl]
      push_cast
      linear_combination hval
    rw [hw, abs_neg]
    exact lt_of_le_of_lt hbnd hfin
  · have habs1 : 1 ≤ |v| := le_of_not_lt habs
    have hcsd : to_csd v places =
        (toCsdGo (csdRemQ |v|) ((csdRemQ |v| : ℤ) - 1) v).1 ++
          '.' :: (toCsdGo places (-1) (toCsdGo (csdRemQ |v|) ((csdRemQ |v| : ℤ) - 1) v).2).1 := by
      unfold to_csd
      rw [if_neg habs]
    have hdec := to_decimal_dot_value
      (toCsdGo (csdRemQ |v|) ((csdRemQ |v| : ℤ) - 1) v).1
      (toCsdGo places (-1) (toCsdGo (csdRemQ |v|) ((csdRemQ |v| : ℤ) - 1) v).2).1
      (fun c hc => toCsdGo_valid _ _ _ c hc)
      (fun c hc => toCsdGo_valid _ _ _ c hc)
    have hval1 := toCsdGo_value (csdRemQ |v|) ((csdRemQ |v| : ℤ) - 1) v
    rw [show (csdRemQ |v| : ℤ) - 1 + 1 - (csdRemQ |v| : ℤ) = 0 by ring, zpow_zero,
      mul_one] at hval1
    have hbnd1 := toCsdGo_bound (csdRemQ |v|) ((csdRemQ |v| : ℤ) - 1) v (by
      rw [show (csdRemQ |v| : ℤ) - 1 + 1 = (csdRemQ |v| : ℤ) by ring]
      have h3 := csdRemQ_bound |v| habs1
      have hps : ((2:ℚ) ^ (csdRemQ |v| + 1 : ℕ)) = 2 ^ ((csdRemQ |v| : ℤ)) * 2 := by
        rw [pow_succ, zpow_natCast]
      have hpos : (0:ℚ) < 2 ^ ((csdRemQ |v| : ℤ)) := zpow_pos (by norm_num) _
      rw [hps] at h3
      linarith)
    rw [show (csdRemQ |v| : ℤ) - 1 + 1 - (csdRemQ |v| : ℤ) = 0 by ring, zpow_zero] at hbnd1
    have hval2 := toCsdGo_value places (-1)
      (toCsdGo (csdRemQ |v|) ((csdRemQ |v| : ℤ) - 1) v).2
    rw [show (-1 : ℤ) + 1 - (places : ℤ) = -(places : ℤ) by ring, hzp] at hval2
    have hbnd2 := toCsdGo_bound places (-1)
      (toCsdGo (csdRemQ |v|) ((csdRemQ |v| : ℤ) - 1) v).2 (by
        rw [show (-1 : ℤ) + 1 = 0 by ring, zpow_zero]
        exact hbnd1)
    rw [show (-1 : ℤ) + 1 - (places : ℤ) = -(places : ℤ) by ring] at hbnd2
    refine ⟨_, by rw [hcsd]; exact hdec, ?_⟩
    rw [toCsdGo_length places (-1) _]
    have hw : ((foldVal (toCsdGo (csdRemQ |v|) ((csdRemQ |v| : ℤ) - 1) v).1 : ℤ) : ℚ) +
        (0 + 1 / 2 * 2 *
          ((foldVal (toCsdGo places (-1) (toCsdGo (csdRemQ |v|) ((csdRemQ |v| : ℤ) - 1) v).2).1 : ℤ) : ℚ) /
            2 ^ places) - v =
        -(toCsdGo places (-1) (toCsdGo (csdRemQ |v|) ((csdRemQ |v| : ℤ) - 1) v).2).2 := by
      linear_combination hval1 + hval2
    rw [hw, abs_neg]
    exact lt_of_le_of_lt hbnd2 hfin

/-- C4 witness: the round-trip bound at `v = 0`, `places = 1`. -/
theorem to_csd_roundtrip_precision_witness :
    ∃ w, to_decimal (to_csd 0 1) = .ok w ∧ |w - 0| < 2 ^ (-(1 : ℤ) + 1) :=
  to_csd_roundtrip_precision 0 1 (le_refl 1)

-- ### Longest repeated non-overlapping substring (lcsre.py)

/-- The DP table of lcsre.py (`LCSRe[i][j]`, 1-indexed): each cell is
written once, from the previous diagonal cell only, so the table is the
recurrence of lines 68-81: when the characters at `i-1` and `j-1`
(0-based) match inside the scanned region (`i < j ≤ len`) and the
previous diagonal value is below the distance `j - i`, extend it by one;
otherwise the cell is 0.  Cells outside the scanned region stay 0. -/
def LCSRe (s : List Char) : ℕ → ℕ → ℕ
  | 0, _ => 0
  | i + 1, j =>
    match j with
    | 0 => 0
    | j + 1 =>
      if i < j ∧ j < s.length ∧ s[i]? = s[j]? ∧ LCSRe s i j < (j + 1) - (i + 1)
      then LCSRe s i j + 1
      else 0

/-- Update of `(result_length, index)` at one cell (lcsre.py lines
76-78): on a strictly larger length, record it and set
`index = max(row_index, index)`. -/
def lrsStep (s : List Char) (i : ℕ) (st : ℕ × ℕ) (j : ℕ) : ℕ × ℕ :=
  if st.1 < LCSRe s i j then (LCSRe s i j, max i st.2) else st

/-- Inner column loop of lcsre.py: `for col_index in range(row_index + 1,
num_dimensions)`. -/
def lrsRow (s : List Char) (i : ℕ) (st : ℕ × ℕ) : ℕ × ℕ :=
  (List.range' (i + 1) (s.length - i)).foldl (lrsStep s i) st

/-- Outer row loop of lcsre.py: `for row_index in range(1,
num_dimensions)`, starting from `result_length = 0`, `index = 0`. -/
def lrsScan (s : List Char) : ℕ × ℕ :=
  (List.range' 1 s.length).foldl (fun st i => lrsRow s i st) (0, 0)

/-- `longest_repeated_substring` from lcsre.py: extract
`csd_string[index - result_length : index]` when a repeat was found. -/
def longest_repeated_substring (s : List Char) : List Char :=
  if 0 < (lrsScan s).1 then
    (s.take (lrsScan s).2).drop ((lrsScan s).2 - (lrsScan s).1)
  else []

/-- `t` occurs (at least) twice in `s` without overlap: two occurrences
whose start positions are at least `t.length` apart. -/
def repeatsNonOverlap (s t : List Char) : Prop :=
  t ≠ [] ∧ ∃ a b, a + t.length ≤ b ∧ b + t.length ≤ s.length ∧
    (s.drop a).take t.length = t ∧ (s.drop b).take t.length = t

theorem LCSRe_zero_left (s : List Char) (j : ℕ) : LCSRe s 0 j = 0 := rfl

theorem LCSRe_zero_right (s : List Char) (i : ℕ) : LCSRe s (i + 1) 0 = 0 := rfl

theorem LCSRe_succ (s : List Char) (i j : ℕ) :
    LCSRe s (i + 1) (j + 1) =
      if i < j ∧ j < s.length ∧ s[i]? = s[j]? ∧ LCSRe s i j < (j + 1) - (i + 1)
      then LCSRe s i j + 1
      else 0 := rfl

theorem LCSRe_le_left (s : List Char) : ∀ i j, LCSRe s i j ≤ i := by
  intro i
  induction i with
  | zero => intro j; rw [LCSRe_zero_left]
  | succ i ih =>
    intro j
    match j with
    | 0 => rw [LCSRe_zero_right]; omega
    | j + 1 =>
      rw [LCSRe_succ]
      split
      · have := ih j; omega
      · omega

theorem LCSRe_pos (s : List Char) (i j : ℕ) (h : 0 < LCSRe s i j) :
    i < j ∧ j ≤ s.length := by
  match i, j with
  | 0, j => rw [LCSRe_zero_left] at h; omega
  | i + 1, 0 => rw [LCSRe_zero_right] at h; omega
  | i + 1, j + 1 =>
    rw [LCSRe_succ] at h
    by_cases hc : i < j ∧ j < s.length ∧ s[i]? = s[j]? ∧
        LCSRe s i j < (j + 1) - (i + 1)
    · obtain ⟨h1, h2, _, _⟩ := hc
      omega
    · rw [if_neg hc] at h
      omega

theorem LCSRe_dist (s : List Char) (i j : ℕ) (h : 0 < LCSRe s i j) :
    LCSRe s i j + i ≤ j := by
  match i, j with
  | 0, j => rw [LCSRe_zero_left] at h; omega
  | i + 1, 0 => rw [LCSRe_zero_right] at h; omega
  | i + 1, j + 1 =>
    rw [LCSRe_succ] at h ⊢
    by_cases hc : i < j ∧ j < s.length ∧ s[i]? = s[j]? ∧
        LCSRe s i j < (j + 1) - (i + 1)
    · obtain ⟨h1, h2, _, h4⟩ := hc
      rw [if_pos ⟨h1, h2, by tauto, h4⟩]
      omega
    · rw [if_neg hc] at h
      omega

theorem LCSRe_substring (s : List Char) :
    ∀ i, ∀ j, 0 < LCSRe s i j →
      (s.drop (i - LCSRe s i j)).take (LCSRe s i j) =
        (s.drop (j - LCSRe s i j)).take (LCSRe s i j) := by
  intro i
  induction i with
  | zero =>
    intro j h
    rw [LCSRe_zero_left] at h
    omega
  | succ i ih =>
    intro j h
    match j with
    | 0 => rw [LCSRe_zero_right] at h; omega
    | j + 1 =>
      by_cases hc : i < j ∧ j < s.length ∧ s[i]? = s[j]? ∧
          LCSRe s i j < (j + 1) - (i + 1)
      · obtain ⟨h1, h2, h3, h4⟩ := hc
        have hL : LCSRe s (i + 1) (j + 1) = LCSRe s i j + 1 := by
          rw [LCSRe_succ, if_pos ⟨h1, h2, h3, h4⟩]
        have hPi : LCSRe s i j ≤ i := LCSRe_le_left s i j
        have hPj : LCSRe s i j ≤ j := by
          rcases Nat.eq_zero_or_pos (LCSRe s i j) with hz | hp
          · omega
          · have := LCSRe_dist s i j hp
            omega
        rw [hL]
        rw [show i + 1 - (LCSRe s i j + 1) = i - LCSRe s i j by omega]
        rw [show j + 1 - (LCSRe s i j + 1) = j - LCSRe s i j by omega]
        rw [List.take_succ, List.take_succ]
        congr 1
        · rcases Nat.eq_zero_or_pos (LCSRe s i j) with hz | hp
          · rw [hz]
            rfl
          · exact ih j hp
        · rw [List.getElem?_drop, List.getElem?_drop]
          rw [show i - LCSRe s i j + LCSRe s i j = i by omega]
          rw [show j - LCSRe s i j + LCSRe s i j = j by omega]
          rw [h3]
      · rw [LCSRe_succ, if_neg hc] at h
        omega

/-- The invariant of the `(result_length, index)` accumulator: either it
is still the initial `(0, 0)`, or the recorded length is a positive
table entry in the recorded row. -/
def ScanInv (s : List Char) (st : ℕ × ℕ) : Prop :=
  (st.1 = 0 ∧ st.2 = 0) ∨ (0 < st.1 ∧ ∃ j, LCSRe s st.2 j = st.1)

theorem foldRow_inv (s : List Char) (i : ℕ) :
    ∀ (js : List ℕ) (st : ℕ × ℕ), ScanInv s st → st.2 ≤ i →
      ScanInv s (js.foldl (lrsStep s i) st) ∧
        (js.foldl (lrsStep s i) st).2 ≤ i := by
  intro js
  induction js with
  | nil => intro st h1 h2; exact ⟨h1, h2⟩
  | cons j js ih =>
    intro st h1 h2
    rw [List.foldl_cons]
    by_cases hlt : st.1 < LCSRe s i j
    · have hstep : lrsStep s i st j = (LCSRe s i j, max i st.2) := by
        unfold lrsStep
        rw [if_pos hlt]
      have hmax : max i st.2 = i := by omega
      rw [hstep, hmax]
      exact ih (LCSRe s i j, i) (Or.inr ⟨by omega, j, rfl⟩) (le_refl i)
    · have hstep : lrsStep s i st j = st := by
        unfold lrsStep
        rw [if_neg hlt]
      rw [hstep]
      exact ih st h1 h2

theorem foldRow_mono (s : List Char) (i : ℕ) :
    ∀ (js : List ℕ) (st : ℕ × ℕ), st.1 ≤ (js.foldl (lrsStep s i) st).1 := by
  intro js
  induction js with
  | nil => intro st; exact le_refl _
  | cons j js ih =>
    intro st
    rw [List.foldl_cons]
    by_cases hlt : st.1 < LCSRe s i j
    · have hstep : lrsStep s i st j = (LCSRe s i j, max i st.2) := by
        unfold lrsStep
        rw [if_pos hlt]
      rw [hstep]
      have h3 := ih (LCSRe s i j, max i st.2)
      exact le_trans (le_of_lt hlt) h3
    · have hstep : lrsStep s i st j = st := by
        unfold lrsStep
        rw [if_neg hlt]
      rw [hstep]
      exact ih st

theorem foldRow_ge (s : List Char) (i : ℕ) :
    ∀ (js : List ℕ) (st : ℕ × ℕ) (j : ℕ), j ∈ js →
      LCSRe s i j ≤ (js.foldl (lrsStep s i) st).1 := by
  intro js
  induction js with
  | nil => intro st j hj; simp at hj
  | cons j0 js ih =>
    intro st j hj
    rw [List.foldl_cons]
    rcases List.mem_cons.mp hj with he | hm
    · subst he
      have h1 : LCSRe s i j ≤ (lrsStep s i st j).1 := by
        unfold lrsStep
        by_cases hlt : st.1 < LCSRe s i j
        · rw [if_pos hlt]
        · rw [if_neg hlt]
          omega
      exact le_trans h1 (foldRow_mono s i js _)
    · exact ih _ j hm

theorem foldOut_inv (s : List Char) :
    ∀ (m a : ℕ) (st : ℕ × ℕ), ScanInv s st → st.2 ≤ a →
      ScanInv s ((List.range' a m).foldl (fun st i => lrsRow s i st) st) := by
  intro m
  induction m with
  | zero => intro a st h1 _; exact h1
  | succ m ih =>
    intro a st h1 h2
    rw [show List.range' a (m + 1) = a :: List.range' (a + 1) m from rfl,
      List.foldl_cons]
    have hrow := foldRow_inv s a (List.range' (a + 1) (s.length - a)) st h1 h2
    exact ih (a + 1) (lrsRow s a st) hrow.1 (by
      have := hrow.2
      unfold lrsRow
      omega)

theorem foldOut_mono (s : List Char) :
    ∀ (m a : ℕ) (st : ℕ × ℕ),
      st.1 ≤ ((List.range' a m).foldl (fun st i => lrsRow s i st) st).1 := by
  intro m
  induction m with
  | zero => intro a st; exact le_refl _
  | succ m ih =>
    intro a st
    rw [show List.range' a (m + 1) = a :: List.range' (a + 1) m from rfl,
      List.foldl_cons]
    have h1 : st.1 ≤ (lrsRow s a st).1 := foldRow_mono s a _ st
    exact le_trans h1 (ih (a + 1) (lrsRow s a st))

theorem foldOut_ge (s : List Char) :
    ∀ (m a : ℕ) (st : ℕ × ℕ) (i j : ℕ), i ∈ List.range' a m →
      j ∈ List.range' (i + 1) (s.length - i) →
      LCSRe s i j ≤ ((List.range' a m).foldl (fun st i => lrsRow s i st) st).1 := by
  intro m
  induction m with
  | zero => intro a st i j hi _; simp at hi
  | succ m ih =>
    intro a st i j hi hj
    rw [show List.range' a (m + 1) = a :: List.range' (a + 1) m from rfl] at hi ⊢
    rw [List.foldl_cons]
    rcases List.mem_cons.mp hi with he | hm
    · subst he
      have h1 : LCSRe s i j ≤ (lrsRow s i st).1 := foldRow_ge s i _ st j hj
      exact le_trans h1 (foldOut_mono s m (i + 1) (lrsRow s i st))
    · exact ih (a + 1) (lrsRow s a st) i j hm hj

theorem lrsScan_inv (s : List Char) : ScanInv s (lrsScan s) :=
  foldOut_inv s s.length 1 (0, 0) (Or.inl ⟨rfl, rfl⟩) (by omega)

theorem lrsScan_ge (s : List Char) (i j : ℕ) (h1 : 1 ≤ i) (h2 : i < j)
    (h3 : j ≤ s.length) : LCSRe s i j ≤ (lrsScan s).1 := by
  unfold lrsScan
  apply foldOut_ge
  · rw [List.mem_range'_1]
    omega
  · rw [List.mem_range'_1]
    omega

theorem lrs_core (s : List Char) (hpos : 0 < (lrsScan s).1) :
    (longest_repeated_substring s).length = (lrsScan s).1 ∧
      repeatsNonOverlap s (longest_repeated_substring s) := by
  rcases lrsScan_inv s with ⟨hz, _⟩ | ⟨hp, jw, hej⟩
  · omega
  · have hle : (lrsScan s).1 ≤ (lrsScan s).2 := by
      have := LCSRe_le_left s (lrsScan s).2 jw
      omega
    have hpm := LCSRe_pos s (lrsScan s).2 jw (by rw [hej]; exact hp)
    have hdist := LCSRe_dist s (lrsScan s).2 jw (by rw [hej]; exact hp)
    rw [hej] at hdist
    have hsub := LCSRe_substring s (lrsScan s).2 jw (by rw [hej]; exact hp)
    rw [hej] at hsub
    have hlrs : longest_repeated_substring s =
        (s.drop ((lrsScan s).2 - (lrsScan s).1)).take (lrsScan s).1 := by
      unfold longest_repeated_substring
      rw [if_pos hpos, List.drop_take]
      rw [show (lrsScan s).2 - ((lrsScan s).2 - (lrsScan s).1) = (lrsScan s).1 by omega]
    have hlen : (longest_repeated_substring s).length = (lrsScan s).1 := by
      rw [hlrs, List.length_take, List.length_drop]
      omega
    refine ⟨hlen, ?_, (lrsScan s).2 - (lrsScan s).1, jw - (lrsScan s).1,
      ?_, ?_, ?_, ?_⟩
    · intro hnil
      rw [hnil] at hlen
      simp at hlen
      omega
    · rw [hlen]
      omega
    · rw [hlen]
      omega
    · rw [hlen, hlrs]
    · rw [hlen, hlrs]
      exact hsub.symm

theorem lrs_repeats (s : List Char) (h : longest_repeated_substring s ≠ []) :
    repeatsNonOverlap s (longest_repeated_substring s) := by
  by_cases hpos : 0 < (lrsScan s).1
  · exact (lrs_core s hpos).2
  · exfalso
    apply h
    unfold longest_repeated_substring
    rw [if_neg hpos]

theorem lrs_empty_iff (s : List Char) :
    longest_repeated_substring s = [] ↔ ¬ ∃ t, repeatsNonOverlap s t := by
  constructor
  · intro h
    rintro ⟨t, htne, a, b, hab, hblen, hsa, hsb⟩
    have hLt : 1 ≤ t.length := List.length_pos.mpr htne
    have hscan : (lrsScan s).1 = 0 := by
      by_contra hsp
      have hpos : 0 < (lrsScan s).1 := Nat.pos_of_ne_zero hsp
      have hl := (lrs_core s hpos).1
      rw [h] at hl
      simp at hl
      omega
    have hb : b < s.length := by omega
    have hA : ((s.drop a).take t.length)[0]? = s[a]? := by
      rw [List.getElem?_take_of_lt (by omega : 0 < t.length), List.getElem?_drop,
        Nat.add_zero]
    have hB : ((s.drop b).take t.length)[0]? = s[b]? := by
      rw [List.getElem?_take_of_lt (by omega : 0 < t.length), List.getElem?_drop,
        Nat.add_zero]
    rw [hsa] at hA
    rw [hsb] at hB
    have hchar : s[a]? = s[b]? := hA.symm.trans hB
    have hab' : a < b := by omega
    have hentry1 : LCSRe s (a + 1) (b + 1) ≤ 0 := by
      rw [← hscan]
      exact lrsScan_ge s (a + 1) (b + 1) (by omega) (by omega) (by omega)
    have hprev : ¬LCSRe s a b < (b + 1) - (a + 1) := by
      intro hlt
      have he : LCSRe s (a + 1) (b + 1) = LCSRe s a b + 1 := by
        rw [LCSRe_succ, if_pos ⟨hab', hb, hchar, hlt⟩]
      omega
    have hge : 1 ≤ LCSRe s a b := by omega
    rcases Nat.eq_zero_or_pos a with ha0 | hap
    · subst ha0
      rw [LCSRe_zero_left] at hge
      omega
    · have := lrsScan_ge s a b hap hab' (by omega)
      omega
  · intro hno
    by_contra hne
    exact hno ⟨_, lrs_repeats s hne⟩

set_option maxRecDepth 10000 in
/-- C8: for every string `s`, `longest_repeated_substring s` is a
substring of `s` occurring at least twice with start positions at least
its length apart (whenever it is non-empty), it is empty exactly when no
non-empty substring so repeats, and the three concrete examples of the
spec hold. -/
theorem longest_repeated_substring_spec :
    (∀ s : List Char,
      (longest_repeated_substring s ≠ [] →
        repeatsNonOverlap s (longest_repeated_substring s)) ∧
      (longest_repeated_substring s = [] ↔ ¬ ∃ t, repeatsNonOverlap s t)) ∧
    longest_repeated_substring
        ['+', '-', '0', '0', '+', '-', '0', '0', '+', '-', '0', '0', '+', '-', '0'] =
      ['+', '-', '0', '0', '+', '-', '0'] ∧
    longest_repeated_substring ['a', 'b', 'c', 'd', 'e', 'f', 'g', 'h'] = [] ∧
    longest_repeated_substring ['b', 'a', 'n', 'a', 'n', 'a'] = ['a', 'n'] :=
  ⟨fun s => ⟨lrs_repeats s, lrs_empty_iff s⟩, by decide, by decide, by decide⟩

/-- C8 witness: the validity conjunct applied to `"banana"`. -/
theorem longest_repeated_substring_spec_witness :
    repeatsNonOverlap ['b', 'a', 'n', 'a', 'n', 'a']
      (longest_repeated_substring ['b', 'a', 'n', 'a', 'n', 'a']) :=
  (longest_repeated_substring_spec.1 ['b', 'a', 'n', 'a', 'n', 'a']).1 (by decide)

-- ### Verilog CSD multiplier generator (csd_multiplier.py)

/-- Term collection of `generate_csd_multiplier` (lines 23-29): for each
non-zero digit at index `i`, a term `(max_power - i, isAdd)`. -/
def csdTermsAux (mp : ℤ) : List Char → ℕ → List (ℤ × Bool)
  | [], _ => []
  | c :: rest, i =>
    if c = '+' then (mp - i, true) :: csdTermsAux mp rest (i + 1)
    else if c = '-' then (mp - i, false) :: csdTermsAux mp rest (i + 1)
    else csdTermsAux mp rest (i + 1)

/-- The `terms` list of `generate_csd_multiplier`. -/
def csdTerms (csd : List Char) (mp : ℤ) : List (ℤ × Bool) := csdTermsAux mp csd 0

/-- Insertion into a descending list (for `sorted(..., reverse=True)`). -/
def insertDesc (x : ℤ) : List ℤ → List ℤ
  | [] => [x]
  | y :: ys => if y ≤ x then x :: y :: ys else y :: insertDesc x ys

/-- Descending insertion sort (for `sorted(..., reverse=True)`). -/
def sortDesc : List ℤ → List ℤ
  | [] => []
  | x :: xs => insertDesc x (sortDesc xs)

/-- `sorted(powers_needed, reverse=True)` of line 42: the distinct
powers, in descending order. -/
def sortedPowers (terms : List (ℤ × Bool)) : List ℤ :=
  sortDesc (terms.map Prod.fst).dedup

/-- Module header of lines 32-36. -/
def moduleHeader (w mp : ℤ) : String :=
  "\nmodule csd_multiplier (\n    input signed [" ++ toString (w - 1) ++
    ":0] x,      // Input value\n    output signed [" ++ toString (w + mp - 1) ++
    ":0] result // Result of multiplication\n);"

/-- Shift-wire section of lines 39-43 (empty when there is no term). -/
def shiftWires (terms : List (ℤ × Bool)) (w mp : ℤ) : String :=
  if 0 < terms.length then
    "\n\n    // Create shifted versions of input" ++
      String.join ((sortedPowers terms).map fun p =>
        "\n    wire signed [" ++ toString (w + mp - 1) ++ ":0] x_shift" ++
          toString p ++ " = x <<< " ++ toString p ++ ";")
  else ""

/-- Expression of lines 50-57: the first term is rendered as a bare
`x_shift<p>` (its operation is ignored), the remaining terms fold in
with ` + ` or ` - `. -/
def assignExpr (first : ℤ × Bool) (rest : List (ℤ × Bool)) : String :=
  rest.foldl (fun e t =>
    e ++ (if t.2 then " + x_shift" else " - x_shift") ++ toString t.1)
    ("x_shift" ++ toString first.1)

/-- `generate_csd_multiplier` from csd_multiplier.py: validation, then
header, shift wires and the assignment. -/
def generate_csd_multiplier (csd : List Char) (input_width max_power : ℤ) :
    Except String String :=
  if (csd.length : ℤ) ≠ max_power + 1 then
    .error ("CSD length " ++ toString csd.length ++ " doesn't match max_power=" ++
      toString max_power ++ " (should be max_power+1)")
  else if ¬(csd.all fun c => c = '+' || c = '-' || c = '0') then
    .error "CSD string can only contain '+', '-', or '0'"
  else
    match csdTerms csd max_power with
    | [] =>
      .ok (moduleHeader input_width max_power ++
        shiftWires (csdTerms csd max_power) input_width max_power ++
        "\n\n    // CSD implementation" ++ "\n    assign result = 0;" ++
        "\nendmodule\n")
    | first :: rest =>
      .ok (moduleHeader input_width max_power ++
        shiftWires (csdTerms csd max_power) input_width max_power ++
        "\n\n    // CSD implementation" ++ "\n    assign result = " ++
        assignExpr first rest ++ ";" ++ "\nendmodule\n")

theorem csdTermsAux_first_minus (mp : ℤ) :
    ∀ (l : List Char) (i : ℕ), (l.filter fun c => c != '0').head? = some '-' →
      ∃ rest, csdTermsAux mp l i =
        (mp - ((i + (l.findIdx fun c => c != '0') : ℕ) : ℤ), false) :: rest := by
  intro l
  induction l with
  | nil => intro i h; simp at h
  | cons c t ih =>
    intro i h
    by_cases hc : c = '0'
    · subst hc
      have h' : (t.filter fun c => c != '0').head? = some '-' := h
      obtain ⟨rest, hr⟩ := ih (i + 1) h'
      refine ⟨rest, ?_⟩
      have hstep : csdTermsAux mp ('0' :: t) i = csdTermsAux mp t (i + 1) := rfl
      rw [hstep, hr]
      have hidx : ((('0' : Char) :: t).findIdx fun c => c != '0') =
          (t.findIdx fun c => c != '0') + 1 := by
        rw [List.findIdx_cons]
        rfl
      rw [hidx, show i + ((t.findIdx fun c => c != '0') + 1) =
        i + 1 + (t.findIdx fun c => c != '0') by omega]
    · have hpc : (c != '0') = true := by
        rw [bne_iff_ne]
        exact hc
      have hcm : c = '-' := by
        rw [List.filter_cons, if_pos hpc] at h
        simp at h
        exact h
      subst hcm
      refine ⟨csdTermsAux mp t (i + 1), ?_⟩
      have hidx : ((('-' : Char) :: t).findIdx fun c => c != '0') = 0 := by
        rw [List.findIdx_cons]
        rfl
      rw [hidx]
      have hstep : csdTermsAux mp ('-' :: t) i =
          (mp - (i : ℤ), false) :: csdTermsAux mp t (i + 1) := rfl
      rw [hstep]
      norm_num

theorem foldlExpr_prefix :
    ∀ (rest : List (ℤ × Bool)) (init : String),
      ∃ t, rest.foldl (fun e t =>
          e ++ (if t.2 then " + x_shift" else " - x_shift") ++ toString t.1) init =
        init ++ t := by
  intro rest
  induction rest with
  | nil =>
    intro init
    exact ⟨"", (String.append_empty init).symm⟩
  | cons x xs ih =>
    intro init
    rw [List.foldl_cons]
    obtain ⟨t, ht⟩ := ih
      (init ++ (if x.2 then " + x_shift" else " - x_shift") ++ toString x.1)
    refine ⟨(if x.2 then " + x_shift" else " - x_shift") ++ toString x.1 ++ t, ?_⟩
    rw [ht]
    simp [String.append_assoc]

theorem assignExpr_prefix (first : ℤ × Bool) (rest : List (ℤ × Bool)) :
    ∃ t, assignExpr first rest = ("x_shift" ++ toString first.1) ++ t := by
  unfold assignExpr
  exact foldlExpr_prefix rest ("x_shift" ++ toString first.1)

/-- C7: for every CSD string accepted by the generator whose first
non-zero digit is `-`, the emitted assignment's first term is the
unnegated shifted input: the expression begins with `x_shift<p>` (where
`p` is that digit's power), not `-x_shift<p>`. -/
theorem generate_csd_multiplier_leading_minus_unnegated
    (csd : List Char) (w m : ℤ)
    (hlen : (csd.length : ℤ) = m + 1)
    (hval : (csd.all fun c => c = '+' || c = '-' || c = '0') = true)
    (hfirst : (csd.filter fun c => c != '0').head? = some '-') :
    ∃ tail, generate_csd_multiplier csd w m = .ok
      (moduleHeader w m ++ shiftWires (csdTerms csd m) w m ++
        "\n\n    // CSD implementation" ++ "\n    assign result = " ++
        ("x_shift" ++ toString (m - ((csd.findIdx fun c => c != '0') : ℤ)) ++ tail) ++
        ";" ++ "\nendmodule\n") := by
  obtain ⟨rest, hterms⟩ := csdTermsAux_first_minus m csd 0 hfirst
  rw [Nat.zero_add] at hterms
  have hterms' : csdTerms csd m =
      (m - ((csd.findIdx fun c => c != '0') : ℤ), false) :: rest := hterms
  obtain ⟨tail, hexpr⟩ := assignExpr_prefix
    (m - ((csd.findIdx fun c => c != '0') : ℤ), false) rest
  refine ⟨tail, ?_⟩
  unfold generate_csd_multiplier
  rw [if_neg (by simp [hlen]), if_neg (by simp [hval]), hterms']
  show Except.ok _ = Except.ok _
  rw [hexpr]

/-- C7 witness: the generator applied to `"-0-"` with widths 8 and 2,
the inputs of the repository's own `test_generate_csd_multiplier_negative_only`. -/
theorem generate_csd_multiplier_leading_minus_unnegated_witness :
    ∃ tail, generate_csd_multiplier ['-', '0', '-'] 8 2 = .ok
      (moduleHeader 8 2 ++ shiftWires (csdTerms ['-', '0', '-'] 2) 8 2 ++
        "\n\n    // CSD implementation" ++ "\n    assign result = " ++
        ("x_shift" ++
          toString (2 - ((['-', '0', '-'].findIdx fun c => c != '0') : ℤ)) ++ tail) ++
        ";" ++ "\nendmodule\n") :=
  generate_csd_multiplier_leading_minus_unnegated ['-', '0', '-'] 8 2
    (by decide) (by decide) (by decide)
